import Mathlib

/-!
Verification of the transitive shared-library dependency tracker
(`depstracker.py`) and of the macOS binary relocator (`osxrelocator.py`).

Shallow-embedding conventions used throughout:

* the filesystem is abstracted by two functions, `e : String → Bool`
  (the `os.path.exists` / `Path.exists` query) and `r : String → String`
  (the `Path.resolve` symlink canonicalisation);
* the platform Lister's per-binary direct-dependency query
  `list_file_deps(prefix, path)` is abstracted by a function
  `L : String → List String` (the `prefix` argument is already folded in);
* Python's unbounded recursion is compiled to a fuel-indexed structural
  recursion returning `Option`; `none` marks fuel exhaustion, so a
  termination statement takes the form `∃ fuel, … = some …`;
* a Python `dict` becomes an association list in which later assignments
  shadow earlier entries, and a Python `set` used only through membership,
  `update` and iteration becomes a duplicate-free list whose order stands
  for the (unspecified) iteration order of the set.
-/

namespace DepsTrackerModel

/-- Visitation state of a binary inside one closure computation: the values
`'in-progress'` and `'processed'` stored in the `state` dictionary of
`RecursiveLister.find_deps`; an absent key is the `'clean'` default. -/
inductive VState where
  | inProgress
  | processed
deriving DecidableEq, Repr

/-- The `state` dictionary of `find_deps`, as an association list. -/
abbrev StMap := List (String × VState)

/-- Dictionary lookup (`state.get(lib, 'clean')`): first binding wins. -/
def stGet : StMap → String → Option VState
  | [], _ => none
  | (k, v) :: s, x => if k = x then some v else stGet s x

/-- Dictionary assignment (`state[lib] = …`): a new binding shadowing the old. -/
def stSet (s : StMap) (x : String) (v : VState) : StMap := (x, v) :: s

/-- The two mutable containers threaded through `find_deps`: the `state`
dictionary and the `ordered` output list (one shared pair per
`list_deps` invocation). -/
structure Walk where
  state : StMap
  ordered : List String
deriving DecidableEq, Repr

/-- Embeds `RecursiveLister.find_deps` (depstracker.py, lines 33-44).
`findDepsRun L fuel ds w` expands every library of the pending list `ds`
in order, exactly as the `for libdep in lib_deps:` loop does: a library
whose state is `processed` or `in-progress` is skipped (the Python early
`return`), otherwise it is marked `in-progress`, its direct dependencies
`L lib` are expanded recursively, it is marked `processed` and appended
to `ordered`.  Every recursive call consumes one unit of fuel; `none`
means the fuel ran out. -/
def findDepsRun (L : String → List String) : Nat → List String → Walk → Option Walk
  | 0, ds, w =>
    match ds with
    | [] => some w
    | _ :: _ => none
  | _ + 1, [], w => some w
  | fuel + 1, lib :: rest, w =>
    if stGet w.state lib = some VState.processed then
      findDepsRun L fuel rest w
    else if stGet w.state lib = some VState.inProgress then
      findDepsRun L fuel rest w
    else
      match findDepsRun L fuel (L lib) ⟨stSet w.state lib VState.inProgress, w.ordered⟩ with
      | none => none
      | some w2 =>
        findDepsRun L fuel rest ⟨stSet w2.state lib VState.processed, w2.ordered ++ [lib]⟩

/-- Embeds one call `find_deps(prefix, lib, state, ordered)`.  The boolean
records what the Python function returns: `false` for the early `return`
(Python `None`, taken when the library is already `processed` or
`in-progress`), `true` for the final `return ordered`. -/
def find_deps (L : String → List String) (fuel : Nat) (lib : String) (w : Walk) :
    Option (Walk × Bool) :=
  if stGet w.state lib = some VState.processed then some (w, false)
  else if stGet w.state lib = some VState.inProgress then some (w, false)
  else (findDepsRun L fuel [lib] w).map (fun w' => (w', true))

/-- Python's `deps.update(new_deps)` on the model of a `set`: insert each
element not already present, keeping insertion order. -/
def addUnique (deps : List String) (xs : List String) : List String :=
  xs.foldl (fun d x => if x ∈ d then d else d ++ [x]) deps

/-- Embeds the `for path in paths:` loop of `RecursiveLister.list_deps`
(lines 46-58).  A non-existing entry point is skipped; otherwise
`find_deps` runs on the resolved path; when it returns `None` the loop
continues (`new_deps is None`); when it returns `ordered`, the raw entry
path is appended to that same list (`new_deps.append(path)` mutates
`ordered` itself) and the whole list is merged into the `deps` set. -/
def list_deps_run (L : String → List String) (e : String → Bool) (r : String → String)
    (fuel : Nat) : List String → Walk → List String → Option (Walk × List String)
  | [], w, deps => some (w, deps)
  | p :: ps, w, deps =>
    if e p = false then list_deps_run L e r fuel ps w deps
    else
      match find_deps L fuel (r p) w with
      | none => none
      | some (w1, false) => list_deps_run L e r fuel ps w1 deps
      | some (w1, true) =>
        list_deps_run L e r fuel ps ⟨w1.state, w1.ordered ++ [p]⟩
          (addUnique deps (w1.ordered ++ [p]))

/-- Embeds `RecursiveLister.list_deps`: the `state` dictionary, the
`ordered` list and the `deps` set are all constructed fresh inside the
call (lines 47-49). -/
def list_deps (L : String → List String) (e : String → Bool) (r : String → String)
    (fuel : Nat) (paths : List String) : Option (List String) :=
  (list_deps_run L e r fuel paths ⟨[], []⟩ []).map (fun x => x.2)

/-- The per-object state of a `DepsTracker` instance: the `libs_deps`
dictionary initialised in `__init__` (and never touched afterwards);
`prefix` and the lister are immutable configuration folded into the
function parameters. -/
structure TrackerSt where
  libs_deps : List (String × List String)
deriving DecidableEq, Repr

/-- Embeds `DepsTracker.list_deps` (lines 140-142): delegate to the
lister's `list_deps` and resolve each element of the returned set,
producing a list (`[d.resolve() for d in deps]`). -/
def tracker_list_deps (L : String → List String) (e : String → Bool)
    (r : String → String) (fuel : Nat) (paths : List String) : Option (List String) :=
  (list_deps L e r fuel paths).map (List.map r)

/-- `DepsTracker.list_deps` as a method call on the tracker object:
the instance state is read and returned unchanged (the method touches no
instance attribute other than the immutable configuration). -/
def tracker_call (L : String → List String) (e : String → Bool) (r : String → String)
    (fuel : Nat) (ts : TrackerSt) (paths : List String) :
    TrackerSt × Option (List String) :=
  (ts, tracker_list_deps L e r fuel paths)

/-- Python's `str.replace(old, new)` over character lists: replace all
non-overlapping occurrences, scanning left to right.  The fuel is
instantiated with the length of the subject, which is enough for every
step (each step consumes at least one character when `old` is nonempty,
and an empty `old` is never used by this code). -/
def pyReplaceFuel (old nw : List Char) : Nat → List Char → List Char
  | _, [] => []
  | 0, cs => cs
  | fuel + 1, c :: cs =>
    if old ≠ [] ∧ old.isPrefixOf (c :: cs) then
      nw ++ pyReplaceFuel old nw fuel (List.drop old.length (c :: cs))
    else
      c :: pyReplaceFuel old nw fuel cs

/-- Python's `s.replace(old, new)`. -/
def pyReplace (s old nw : String) : String :=
  ⟨pyReplaceFuel old.data nw.data s.data.length s.data⟩

/-- Python's `os.path.dirname` (posixpath): the part of the path up to the
last `'/'`, with trailing slashes stripped unless the head consists of
slashes only; the empty string when there is no slash. -/
def pyDirname (s : String) : String :=
  let cs := s.data
  let after := (cs.reverse.takeWhile (fun c => c ≠ '/')).length
  if after = cs.length then ""
  else
    let head := cs.take (cs.length - after)
    if head.all (fun c => c = '/') then ⟨head⟩
    else ⟨(head.reverse.dropWhile (fun c => c = '/')).reverse⟩

/-- Embeds `OtoolLister._replace_rpath` (lines 112-117).  The `rpaths`
set is modelled by the list giving its iteration order: substitute each
run-path directory for the `@rpath` token in turn, return the first
substitution naming an existing file, resolved; if none exists, resolve
the dependency string as given. -/
def replaceRpath (e : String → Bool) (r : String → String) (path : String) :
    List String → String
  | [] => r path
  | rp :: rps =>
    let translated := pyReplace path "@rpath" rp
    if e translated then r translated else replaceRpath e r path rps

/-- Modelled from the spec: the binary metadata that the external `otool`
and `install_name_tool` invocations of `osxrelocator.py` read and edit —
the linked-library dependency records (`otool -L` body) and the embedded
run-path search-directory records (`LC_RPATH` load commands, in order).
The tools themselves are not part of the repository. -/
structure MachO where
  libs : List String
  rpaths : List String
deriving DecidableEq, Repr

/-- Embeds `OSXRelocator.list_shared_libraries` (lines 52-62): the parsed
`otool -L` output is exactly the binary's dependency records. -/
def listSharedLibraries (b : MachO) : List String := b.libs

/-- Modelled from the spec: the `otool -l` parse inside `_remove_rpath`
(lines 66-74) returns the literal `LC_RPATH` record strings. -/
def getRpathRecords (b : MachO) : List String := b.rpaths

/-- One external `install_name_tool` invocation issued by
`change_libs_path`. -/
inductive Invocation where
  | change (old nw : String)
  | deleteRpath (rp : String)
  | addRpath (rp : String)
deriving DecidableEq, Repr

/-- Modelled from the spec: the effect of one successful
`install_name_tool` edit on the binary metadata — `-change old new`
rewrites every dependency record equal to `old`; `-delete_rpath p`
removes the run-path records equal to `p`; `-add_rpath p` appends a
run-path record. -/
def applyInv : Invocation → MachO → MachO
  | Invocation.change old nw, b => ⟨b.libs.map (fun l => if l = old then nw else l), b.rpaths⟩
  | Invocation.deleteRpath rp, b => ⟨b.libs, b.rpaths.filter (fun x => x ≠ rp)⟩
  | Invocation.addRpath rp, b => ⟨b.libs, b.rpaths ++ [rp]⟩

/-- A run of `change_libs_path`: the current binary metadata and the
trace of tool invocations issued so far. -/
structure ToolRun where
  bin : MachO
  calls : List Invocation
deriving DecidableEq, Repr

/-- One fire-and-forget tool invocation (`subprocess.call` /
`subprocess.run(..., check=False)`): the invocation is recorded
unconditionally; its edit is applied only when the call succeeds, as
given by the outcome function `f` at the invocation's index. -/
def issue (f : Nat → Bool) (t : ToolRun) (i : Invocation) : ToolRun :=
  ⟨if f t.calls.length then applyInv i t.bin else t.bin, t.calls ++ [i]⟩

/-- The `startswith(('/usr/lib', '/System/Library'))` test of
`_get_prefixes` (line 87). -/
def isSysLibDir (s : String) : Bool :=
  "/usr/lib".data.isPrefixOf s.data || "/System/Library".data.isPrefixOf s.data

/-- Embeds `OSXRelocator._get_prefixes` (lines 84-87): the distinct
containing directories of the dependency records, minus those under the
fixed system directories. -/
def getPrefixes (b : MachO) : List String :=
  (((listSharedLibraries b).map pyDirname).dedup).filter (fun x => !isSysLibDir x)

/-- The dependency-rewrite loop of `change_libs_path` (lines 41-47):
for each dependency record whose containing directory is in the retained
set, issue `install_name_tool -change lib lib.replace(prefix, '@rpath')`. -/
def changeStep (f : Nat → Bool) (b : MachO) : ToolRun :=
  (listSharedLibraries b).foldl
    (fun t lib =>
      if pyDirname lib ∈ getPrefixes b then
        issue f t (Invocation.change lib (pyReplace lib (pyDirname lib) "@rpath"))
      else t)
    ⟨b, []⟩

/-- Embeds `OSXRelocator._remove_rpath` (lines 64-82) followed by the
run-path additions of `change_libs_path` (lines 49-50): delete each
distinct recorded run-path (`for rpath in set(rpaths)`), then add the
three fixed tokens in order. -/
def removeAddSteps (f : Nat → Bool) (t1 : ToolRun) : ToolRun :=
  let t2 := ((getRpathRecords t1.bin).dedup).foldl
    (fun t rp => issue f t (Invocation.deleteRpath rp)) t1
  [".", "@loader_path", "@executable_path"].foldl
    (fun t p => issue f t (Invocation.addRpath p)) t2

/-- Embeds `OSXRelocator.change_libs_path` (lines 40-50) in the runs
where the checked `otool -l` query inside `_remove_rpath` succeeds. -/
def changeLibsPath (f : Nat → Bool) (b : MachO) : ToolRun :=
  removeAddSteps f (changeStep f b)

/-- Embeds `change_libs_path` with the outcome of the checked `otool -l`
query of `_remove_rpath` made explicit: that query runs with
`check=True`, so its failure raises `CalledProcessError`, aborting the
removal and addition steps (`Except.error`). -/
def changeLibsPathE (f : Nat → Bool) (readOk : Bool) (b : MachO) : Except Unit ToolRun :=
  let t1 := changeStep f b
  if readOk then Except.ok (removeAddSteps f t1) else Except.error ()

/-- The all-invocations-succeed outcome. -/
def allOk : Nat → Bool := fun _ => true

/-- One dependency edge of the graph induced by the Lister. -/
def DepEdge (L : String → List String) (x y : String) : Prop := y ∈ L x

/-- Reachability along Lister-induced dependency edges. -/
def Reaches (L : String → List String) (x y : String) : Prop :=
  Relation.ReflTransGen (DepEdge L) x y

/-- The induced dependency graph has no (nontrivial) cycle. -/
def Acyclic (L : String → List String) : Prop :=
  ∀ x, ¬ Relation.TransGen (DepEdge L) x x

/-- No binary is marked `in-progress` (holds between entry-point
iterations of one `list_deps` call). -/
def NoIp (s : StMap) : Prop := ∀ x, stGet s x ≠ some VState.inProgress

/-- Every direct dependency of a `processed` binary has been visited. -/
def ClosedSt (L : String → List String) (s : StMap) : Prop :=
  ∀ x, stGet s x = some VState.processed → ∀ y ∈ L x, stGet s y ≠ none

/-- Every `processed` binary has been appended to `ordered`. -/
def OrdCov (w : Walk) : Prop :=
  ∀ x, stGet w.state x = some VState.processed → x ∈ w.ordered

/-- Full specification of one successful `findDepsRun` call on the
pending list `ds`, taking the walk from `w` to `w'`: `delta` is the
block of libraries appended to `ordered`, each appended once, freshly
visited, `processed` afterwards, reachable from the pending list, with
all direct dependencies visited, in an order that respects dependencies
except for edges into a binary that was `in-progress` at append time
(cycle edges — witnessed by a reverse reachability path). -/
structure FdrEffect (L : String → List String) (ds : List String) (w w' : Walk)
    (delta : List String) : Prop where
  ordered_eq : w'.ordered = w.ordered ++ delta
  nodup : delta.Nodup
  fresh : ∀ x ∈ delta, stGet w.state x = none
  state_eq : ∀ x, stGet w'.state x =
    if x ∈ delta then some VState.processed else stGet w.state x
  reaches : ∀ x ∈ delta, ∃ d ∈ ds, Reaches L d x
  pending_visited : ∀ d ∈ ds, stGet w'.state d ≠ none
  children_visited : ∀ x ∈ delta, ∀ y ∈ L x, stGet w'.state y ≠ none
  topo : ∀ d1 x d2, delta = d1 ++ x :: d2 → ∀ y ∈ L x,
    y ∈ d1 ∨ stGet w.state y ≠ none ∨ ((y = x ∨ y ∈ d2) ∧ Reaches L y x)

/-! Concrete instances used to exercise the model. -/

/-- A lister reporting no dependencies at all. -/
def listerEmpty : String → List String := fun _ => []

/-- A lister inducing the two-cycle `liba → libb → liba`. -/
def listerCycle : String → List String := fun s =>
  if s = "liba" then ["libb"] else if s = "libb" then ["liba"] else []

/-- A filesystem on which every path exists. -/
def fsAllExist : String → Bool := fun _ => true

/-- Symlink resolution sending the two links `/a/link1`, `/a/link2` to the
same target `/a/real` and fixing everything else. -/
def fsTwoLinks : String → String := fun s =>
  if s = "/a/link1" then "/a/real" else if s = "/a/link2" then "/a/real" else s

/-- A lister on which `/a/real` depends on the missing file `/gone`. -/
def listerGone : String → List String := fun s =>
  if s = "/a/real" then ["/gone"] else []

/-- A filesystem on which exactly `/gone` is missing. -/
def fsGoneMissing : String → Bool := fun s => !(s == "/gone")

/-- Symlink resolution sending `/a/link` to `/a/real` and fixing the rest. -/
def fsOneLink : String → String := fun s => if s = "/a/link" then "/a/real" else s

/-- A filesystem on which exactly `/rp/lib.dylib` exists. -/
def fsRpOnly : String → Bool := fun s => s == "/rp/lib.dylib"

/-- A binary with one relocatable dependency, one system dependency and
two stale run-path records. -/
def machExample : MachO :=
  ⟨["/opt/fw/lib/libcore.dylib", "/usr/lib/libSystem.B.dylib"], ["/old/path", "/p2"]⟩

/-! Helper lemmas about the relocator model. -/

theorem issue_change_rpaths (f : Nat → Bool) (t : ToolRun) (old nw : String) :
    (issue f t (Invocation.change old nw)).bin.rpaths = t.bin.rpaths := by
  simp only [issue]
  split <;> rfl

theorem changeFold_rpaths (f : Nat → Bool) (P : List String) :
    ∀ (libs : List String) (t : ToolRun),
      ((libs.foldl (fun t lib =>
          if pyDirname lib ∈ P then
            issue f t (Invocation.change lib (pyReplace lib (pyDirname lib) "@rpath"))
          else t) t).bin.rpaths) = t.bin.rpaths := by
  intro libs
  induction libs with
  | nil => intro t; rfl
  | cons lib libs ih =>
    intro t
    simp only [List.foldl_cons]
    by_cases h : pyDirname lib ∈ P
    · rw [if_pos h, ih, issue_change_rpaths]
    · rw [if_neg h, ih]

theorem changeStep_rpaths (f : Nat → Bool) (b : MachO) :
    (changeStep f b).bin.rpaths = b.rpaths :=
  changeFold_rpaths f (getPrefixes b) b.libs ⟨b, []⟩

theorem changeFold_calls (f : Nat → Bool) (P : List String) :
    ∀ (libs : List String) (t : ToolRun),
      ((libs.foldl (fun t lib =>
          if pyDirname lib ∈ P then
            issue f t (Invocation.change lib (pyReplace lib (pyDirname lib) "@rpath"))
          else t) t).calls) =
        t.calls ++ libs.filterMap (fun lib =>
          if pyDirname lib ∈ P then
            some (Invocation.change lib (pyReplace lib (pyDirname lib) "@rpath"))
          else none) := by
  intro libs
  induction libs with
  | nil => intro t; simp
  | cons lib libs ih =>
    intro t
    simp only [List.foldl_cons, List.filterMap_cons]
    by_cases h : pyDirname lib ∈ P
    · rw [if_pos h, if_pos h, ih]
      simp [issue]
    · rw [if_neg h, if_neg h, ih]

theorem changeStep_calls (f : Nat → Bool) (b : MachO) :
    (changeStep f b).calls = b.libs.filterMap (fun lib =>
      if pyDirname lib ∈ getPrefixes b then
        some (Invocation.change lib (pyReplace lib (pyDirname lib) "@rpath"))
      else none) :=
  changeFold_calls f (getPrefixes b) b.libs ⟨b, []⟩

theorem getPrefixes_not_sys (b : MachO) :
    ∀ x ∈ getPrefixes b, isSysLibDir x = false := by
  intro x hx
  simp only [getPrefixes, List.mem_filter, Bool.not_eq_true'] at hx
  exact hx.2

theorem changeFold_libsGet (f : Nat → Bool) (P : List String)
    (hP : ∀ x ∈ P, isSysLibDir x = false) (e : String) (i : Nat)
    (he : isSysLibDir (pyDirname e) = true) :
    ∀ (libs : List String) (t : ToolRun), t.bin.libs[i]? = some e →
      ((libs.foldl (fun t lib =>
          if pyDirname lib ∈ P then
            issue f t (Invocation.change lib (pyReplace lib (pyDirname lib) "@rpath"))
          else t) t).bin.libs[i]?) = some e := by
  intro libs
  induction libs with
  | nil => intro t ht; exact ht
  | cons lib libs ih =>
    intro t ht
    simp only [List.foldl_cons]
    by_cases h : pyDirname lib ∈ P
    · rw [if_pos h]
      apply ih
      have hne : lib ≠ e := by
        intro hcontra
        rw [hcontra] at h
        exact absurd he (by simp [hP _ h])
      simp only [issue]
      split
      · simp [applyInv, List.getElem?_map, ht, Ne.symm hne]
      · exact ht
    · rw [if_neg h]; exact ih t ht

theorem deleteFold_calls (f : Nat → Bool) :
    ∀ (ds : List String) (t : ToolRun),
      ((ds.foldl (fun t rp => issue f t (Invocation.deleteRpath rp)) t).calls) =
        t.calls ++ ds.map Invocation.deleteRpath := by
  intro ds
  induction ds with
  | nil => intro t; simp
  | cons d ds ih =>
    intro t
    simp only [List.foldl_cons, List.map_cons, ih]
    simp [issue]

theorem deleteFold_libs (f : Nat → Bool) :
    ∀ (ds : List String) (t : ToolRun),
      ((ds.foldl (fun t rp => issue f t (Invocation.deleteRpath rp)) t).bin.libs) =
        t.bin.libs := by
  intro ds
  induction ds with
  | nil => intro t; rfl
  | cons d ds ih =>
    intro t
    simp only [List.foldl_cons, ih]
    simp only [issue]
    split <;> rfl

theorem deleteFold_rpaths_nil :
    ∀ (ds : List String) (t : ToolRun), (∀ x ∈ t.bin.rpaths, x ∈ ds) →
      ((ds.foldl (fun t rp => issue allOk t (Invocation.deleteRpath rp)) t).bin.rpaths) = [] := by
  intro ds
  induction ds with
  | nil =>
    intro t ht
    exact List.eq_nil_iff_forall_not_mem.mpr fun x hx => List.not_mem_nil x (ht x hx)
  | cons d ds ih =>
    intro t ht
    simp only [List.foldl_cons]
    apply ih
    intro x hx
    simp [issue, allOk, applyInv, List.mem_filter] at hx
    rcases List.mem_cons.mp (ht x hx.1) with h | h
    · exact absurd h hx.2
    · exact h

theorem removeAdd_rpaths_allOk (t : ToolRun) :
    (removeAddSteps allOk t).bin.rpaths = [".", "@loader_path", "@executable_path"] := by
  have hnil := deleteFold_rpaths_nil ((getRpathRecords t.bin).dedup) t
    (fun x hx => List.mem_dedup.mpr hx)
  have haddrp : ∀ (t' : ToolRun) (rp : String),
      (issue allOk t' (Invocation.addRpath rp)).bin.rpaths = t'.bin.rpaths ++ [rp] := by
    intro t' rp
    simp [issue, allOk, applyInv]
  simp only [removeAddSteps, List.foldl_cons, List.foldl_nil]
  rw [haddrp, haddrp, haddrp, hnil]
  rfl

theorem removeAdd_calls (f : Nat → Bool) (t : ToolRun) :
    (removeAddSteps f t).calls =
      t.calls ++ ((getRpathRecords t.bin).dedup).map Invocation.deleteRpath ++
        [Invocation.addRpath ".", Invocation.addRpath "@loader_path",
          Invocation.addRpath "@executable_path"] := by
  have hic : ∀ (t' : ToolRun) (i : Invocation), (issue f t' i).calls = t'.calls ++ [i] :=
    fun _ _ => rfl
  simp only [removeAddSteps, List.foldl_cons, List.foldl_nil]
  rw [hic, hic, hic, deleteFold_calls]
  simp

theorem removeAdd_libs (f : Nat → Bool) (t : ToolRun) :
    (removeAddSteps f t).bin.libs = t.bin.libs := by
  simp only [removeAddSteps, List.foldl_cons, List.foldl_nil]
  have h1 : ∀ (t' : ToolRun) (rp : String),
      (issue f t' (Invocation.addRpath rp)).bin.libs = t'.bin.libs := by
    intro t' rp
    simp only [issue]
    split <;> rfl
  rw [h1, h1, h1, deleteFold_libs]

theorem changeLibsPath_calls_eq (f : Nat → Bool) (b : MachO) :
    (changeLibsPath f b).calls =
      (b.libs.filterMap (fun lib =>
        if pyDirname lib ∈ getPrefixes b then
          some (Invocation.change lib (pyReplace lib (pyDirname lib) "@rpath"))
        else none)) ++ (b.rpaths.dedup).map Invocation.deleteRpath ++
        [Invocation.addRpath ".", Invocation.addRpath "@loader_path",
          Invocation.addRpath "@executable_path"] := by
  rw [changeLibsPath, removeAdd_calls, changeStep_calls]
  have : getRpathRecords (changeStep f b).bin = b.rpaths := changeStep_rpaths f b
  rw [this]

/-! Claim theorems for the relocator. -/

/-- C7: after `change_libs_path` (all tool invocations succeeding) the
binary's run-path records are exactly `.`, `@loader_path`,
`@executable_path` in this order, whatever was embedded before; hence a
second run produces the same final run-path list (idempotence). -/
theorem claim_C7_runpaths (b : MachO) :
    (changeLibsPath allOk b).bin.rpaths = [".", "@loader_path", "@executable_path"] ∧
    (changeLibsPath allOk ((changeLibsPath allOk b).bin)).bin.rpaths =
      (changeLibsPath allOk b).bin.rpaths := by
  have key : ∀ b' : MachO,
      (changeLibsPath allOk b').bin.rpaths = [".", "@loader_path", "@executable_path"] :=
    fun b' => removeAdd_rpaths_allOk (changeStep allOk b')
  exact ⟨key b, by rw [key, key]⟩

/-- C8: a dependency record whose containing directory lies under
`/usr/lib` or `/System/Library` is left unchanged by `change_libs_path`,
and no rewrite invocation is issued for it. -/
theorem claim_C8_system_deps_untouched (f : Nat → Bool) (b : MachO) (i : Nat) (e : String)
    (hget : b.libs[i]? = some e) (hsys : isSysLibDir (pyDirname e) = true) :
    (changeLibsPath f b).bin.libs[i]? = some e ∧
      ∀ nw, Invocation.change e nw ∉ (changeLibsPath f b).calls := by
  constructor
  · rw [changeLibsPath, removeAdd_libs]
    exact changeFold_libsGet f (getPrefixes b) (getPrefixes_not_sys b) e i hsys b.libs ⟨b, []⟩ hget
  · intro nw hmem
    rw [changeLibsPath_calls_eq] at hmem
    simp only [List.mem_append, List.mem_filterMap, List.mem_map] at hmem
    rcases hmem with (⟨lib, _, hlib⟩ | ⟨rp, _, hrp⟩) | hadd
    · by_cases h : pyDirname lib ∈ getPrefixes b
      · rw [if_pos h] at hlib
        have hle : lib = e := (Invocation.change.injEq _ _ _ _).mp (Option.some.inj hlib) |>.1
        rw [hle] at h
        exact absurd hsys (by simp [getPrefixes_not_sys b _ h])
      · rw [if_neg h] at hlib
        exact Option.noConfusion hlib
    · exact Invocation.noConfusion hrp
    · simp at hadd

/-- C8 witness: the system dependency of `machExample` is preserved and
never the target of a rewrite invocation. -/
theorem claim_C8_witness :
    machExample.libs[1]? = some "/usr/lib/libSystem.B.dylib" ∧
    isSysLibDir (pyDirname "/usr/lib/libSystem.B.dylib") = true ∧
    ((changeLibsPath allOk machExample).bin.libs[1]? = some "/usr/lib/libSystem.B.dylib" ∧
      ∀ nw, Invocation.change "/usr/lib/libSystem.B.dylib" nw ∉
        (changeLibsPath allOk machExample).calls) :=
  ⟨by decide, by decide,
    claim_C8_system_deps_untouched allOk machExample 1 "/usr/lib/libSystem.B.dylib"
      (by decide) (by decide)⟩

/-- C9 (amended): every `install_name_tool` edit invocation of the
rewrite, removal and addition steps is fire-and-forget — the issued
invocation trace is the same under any pattern of edit failures — but
the checked `otool -l` query of the removal step is not: its failure
raises and aborts the remaining steps. -/
theorem claim_C9_fire_and_forget (f : Nat → Bool) (b : MachO) :
    (changeLibsPath f b).calls = (changeLibsPath allOk b).calls ∧
    changeLibsPathE f true b = Except.ok (changeLibsPath f b) := by
  refine ⟨?_, rfl⟩
  rw [changeLibsPath_calls_eq, changeLibsPath_calls_eq]

/-- C9 counterexample: on `machExample`, a failing invocation inside the
removal step (the checked `otool -l` query) raises — the run aborts with
an error and the addition-step invocations, which a successful run does
issue, are never attempted. -/
theorem claim_C9_counterexample :
    changeLibsPathE allOk false machExample = Except.error () ∧
    Invocation.addRpath "." ∈ (changeLibsPath allOk machExample).calls := by
  constructor
  · rfl
  · decide

/-! Helper lemmas about `_replace_rpath`. -/

theorem replaceRpath_none (e : String → Bool) (r : String → String) (path : String) :
    ∀ rpaths, (∀ rp ∈ rpaths, e (pyReplace path "@rpath" rp) = false) →
      replaceRpath e r path rpaths = r path := by
  intro rpaths
  induction rpaths with
  | nil => intro _; rfl
  | cons rp rps ih =>
    intro h
    have h0 := h rp (List.mem_cons_self rp rps)
    simp only [replaceRpath, h0, Bool.false_eq_true, if_false]
    exact ih fun rp' h' => h rp' (List.mem_cons_of_mem rp h')

theorem replaceRpath_found (e : String → Bool) (r : String → String) (path : String) :
    ∀ (l1 : List String) (rp : String) (l2 : List String),
      (∀ rp' ∈ l1, e (pyReplace path "@rpath" rp') = false) →
      e (pyReplace path "@rpath" rp) = true →
      replaceRpath e r path (l1 ++ rp :: l2) = r (pyReplace path "@rpath" rp) := by
  intro l1
  induction l1 with
  | nil =>
    intro rp l2 _ h2
    simp only [List.nil_append, replaceRpath, h2, if_true]
  | cons q l1 ih =>
    intro rp l2 h1 h2
    have h0 := h1 q (List.mem_cons_self q l1)
    simp only [List.cons_append, replaceRpath, h0, Bool.false_eq_true, if_false]
    exact ih rp l2 (fun rp' h' => h1 rp' (List.mem_cons_of_mem q h')) h2

/-- C6: `_replace_rpath` tries each run-path directory (in the iteration
order of the `rpaths` set) as a substitution for the `@rpath` token; the
first substitution naming an existing file is returned resolved; when no
substitution names an existing file, the literal dependency string is
resolved as given. -/
theorem claim_C6_rpath_resolution (e : String → Bool) (r : String → String)
    (path : String) (rpaths : List String) :
    ((∀ rp ∈ rpaths, e (pyReplace path "@rpath" rp) = false) →
      replaceRpath e r path rpaths = r path) ∧
    (∀ l1 rp l2, rpaths = l1 ++ rp :: l2 →
      (∀ rp' ∈ l1, e (pyReplace path "@rpath" rp') = false) →
      e (pyReplace path "@rpath" rp) = true →
      replaceRpath e r path rpaths = r (pyReplace path "@rpath" rp)) := by
  refine ⟨replaceRpath_none e r path rpaths, ?_⟩
  intro l1 rp l2 heq h1 h2
  rw [heq]
  exact replaceRpath_found e r path l1 rp l2 h1 h2

/-- C6 witness: with run-path list `["/bad", "/rp"]` and only
`/rp/lib.dylib` existing, the dependency string `@rpath/lib.dylib`
resolves to the second substitution. -/
theorem claim_C6_witness :
    (∀ rp' ∈ ["/bad"], fsRpOnly (pyReplace "@rpath/lib.dylib" "@rpath" rp') = false) ∧
    fsRpOnly (pyReplace "@rpath/lib.dylib" "@rpath" "/rp") = true ∧
    replaceRpath fsRpOnly id "@rpath/lib.dylib" ["/bad", "/rp"] =
      id (pyReplace "@rpath/lib.dylib" "@rpath" "/rp") :=
  ⟨by decide, by decide,
    (claim_C6_rpath_resolution fsRpOnly id "@rpath/lib.dylib" ["/bad", "/rp"]).2
      ["/bad"] "/rp" [] rfl (by decide) (by decide)⟩

/-! Helper lemma and claim theorems about entry-point skipping and
per-call state freshness. -/

theorem list_deps_run_skip (L : String → List String) (e : String → Bool)
    (r : String → String) (fuel : Nat) (p : String) (post : List String)
    (hp : e p = false) :
    ∀ (pre : List String) (w : Walk) (deps : List String),
      list_deps_run L e r fuel (pre ++ p :: post) w deps =
        list_deps_run L e r fuel (pre ++ post) w deps := by
  intro pre
  induction pre with
  | nil =>
    intro w deps
    simp only [List.nil_append, list_deps_run, hp, if_true]
  | cons q pre ih =>
    intro w deps
    simp only [List.cons_append, list_deps_run]
    by_cases hq : e q = false
    · simp only [if_pos hq]
      exact ih w deps
    · simp only [if_neg hq]
      cases hfd : find_deps L fuel (r q) w with
      | none => rfl
      | some wb =>
        rcases wb with ⟨w1, b⟩
        cases b
        · exact ih w1 deps
        · exact ih _ _

/-- C5: an entry point that does not exist on disk is silently skipped by
`list_deps`: no error, the Lister is never consulted for it, it
contributes nothing to the result, and the remaining entry points are
processed exactly as if it had not been passed. -/
theorem claim_C5_missing_entry_point (L : String → List String) (e : String → Bool)
    (r : String → String) (fuel : Nat) (p : String) (pre post : List String)
    (hp : e p = false) :
    list_deps L e r fuel (pre ++ p :: post) = list_deps L e r fuel (pre ++ post) := by
  unfold list_deps
  rw [list_deps_run_skip L e r fuel p post hp pre]

/-- C5 witness: skipping the missing `/gone` between two existing entry
points. -/
theorem claim_C5_witness :
    fsGoneMissing "/gone" = false ∧
    list_deps listerEmpty fsGoneMissing id 3 (["/a/real"] ++ "/gone" :: ["/b"]) =
      list_deps listerEmpty fsGoneMissing id 3 (["/a/real"] ++ ["/b"]) :=
  ⟨by decide,
    claim_C5_missing_entry_point listerEmpty fsGoneMissing id 3 "/gone" ["/a/real"] ["/b"]
      (by decide)⟩

/-- C10: `list_deps` builds its visitation state, ordered list and result
set fresh inside every invocation: a call leaves the tracker object
unchanged, a later call is unaffected by an earlier one, and the
computation always starts from the empty state containers. -/
theorem claim_C10_fresh_state (L : String → List String) (e : String → Bool)
    (r : String → String) (fuel : Nat) (ts : TrackerSt) (ps1 ps2 : List String) :
    (tracker_call L e r fuel ts ps1).1 = ts ∧
    (tracker_call L e r fuel ((tracker_call L e r fuel ts ps1).1) ps2).2 =
      (tracker_call L e r fuel ts ps2).2 ∧
    list_deps L e r fuel ps1 =
      (list_deps_run L e r fuel ps1 ⟨[], []⟩ []).map (fun x => x.2) :=
  ⟨rfl, rfl, rfl⟩

/-! The depth-first-search master lemma for `findDepsRun`. -/

theorem stGet_stSet (s : StMap) (x : String) (v : VState) (y : String) :
    stGet (stSet s x v) y = if x = y then some v else stGet s y := rfl

theorem stGet_none_of_not (s : StMap) (x : String)
    (h1 : stGet s x ≠ some VState.processed)
    (h2 : stGet s x ≠ some VState.inProgress) : stGet s x = none := by
  cases h : stGet s x with
  | none => rfl
  | some v =>
    cases v with
    | inProgress => exact absurd h h2
    | processed => exact absurd h h1

theorem fdrEffect_empty (L : String → List String) (w : Walk) :
    FdrEffect L [] w w [] where
  ordered_eq := by simp
  nodup := List.nodup_nil
  fresh := by simp
  state_eq := fun x => by simp
  reaches := by simp
  pending_visited := by simp
  children_visited := by simp
  topo := fun d1 x d2 h => by
    exact absurd (List.append_eq_nil.mp h.symm).2 (List.cons_ne_nil x d2)

theorem fdrEffect_skip (L : String → List String) (lib : String) (rest : List String)
    (w w' : Walk) (delta : List String) (hvis : stGet w.state lib ≠ none)
    (E : FdrEffect L rest w w' delta) : FdrEffect L (lib :: rest) w w' delta where
  ordered_eq := E.ordered_eq
  nodup := E.nodup
  fresh := E.fresh
  state_eq := E.state_eq
  reaches := fun x hx => by
    obtain ⟨d, hd, hr⟩ := E.reaches x hx
    exact ⟨d, List.mem_cons_of_mem lib hd, hr⟩
  pending_visited := fun d hd => by
    rcases List.mem_cons.mp hd with rfl | hd'
    · rw [E.state_eq d]
      split
      · simp
      · exact hvis
    · exact E.pending_visited d hd'
  children_visited := E.children_visited
  topo := E.topo

theorem fdrEffect_expand (L : String → List String) (lib : String) (rest : List String)
    (w w2 w' : Walk) (dc dr : List String)
    (hlibnone : stGet w.state lib = none)
    (Ec : FdrEffect L (L lib) ⟨stSet w.state lib VState.inProgress, w.ordered⟩ w2 dc)
    (Er : FdrEffect L rest ⟨stSet w2.state lib VState.processed, w2.ordered ++ [lib]⟩ w' dr) :
    FdrEffect L (lib :: rest) w w' (dc ++ lib :: dr) := by
  have ec : ∀ y, stGet w2.state y =
      if y ∈ dc then some VState.processed else stGet (stSet w.state lib VState.inProgress) y :=
    Ec.state_eq
  have er : ∀ y, stGet w'.state y =
      if y ∈ dr then some VState.processed else stGet (stSet w2.state lib VState.processed) y :=
    Er.state_eq
  have eco : w2.ordered = w.ordered ++ dc := Ec.ordered_eq
  have ero : w'.ordered = (w2.ordered ++ [lib]) ++ dr := Er.ordered_eq
  have ecf : ∀ x ∈ dc, stGet (stSet w.state lib VState.inProgress) x = none := Ec.fresh
  have erf : ∀ x ∈ dr, stGet (stSet w2.state lib VState.processed) x = none := Er.fresh
  have hlib_nc : lib ∉ dc := by
    intro h
    have := ecf lib h
    rw [stGet_stSet, if_pos rfl] at this
    exact Option.noConfusion this
  have hlib_nr : lib ∉ dr := by
    intro h
    have := erf lib h
    rw [stGet_stSet, if_pos rfl] at this
    exact Option.noConfusion this
  have hw2_none : ∀ x ∈ dr, stGet w2.state x = none := by
    intro x hx
    have h3 := erf x hx
    rw [stGet_stSet] at h3
    by_cases hxl : lib = x
    · exact absurd (if_pos hxl ▸ h3) (by simp)
    · rwa [if_neg hxl] at h3
  have hdisj : ∀ x ∈ dr, x ∉ dc := by
    intro x hx hxc
    have h2 := hw2_none x hx
    rw [ec x, if_pos hxc] at h2
    exact Option.noConfusion h2
  have hfresh_c : ∀ x ∈ dc, stGet w.state x = none := by
    intro x hx
    have h1 := ecf x hx
    rw [stGet_stSet] at h1
    by_cases hxl : lib = x
    · exact absurd (if_pos hxl ▸ h1) (by simp)
    · rwa [if_neg hxl] at h1
  have hfresh_r : ∀ x ∈ dr, stGet w.state x = none := by
    intro x hx
    have h2 := hw2_none x hx
    rw [ec x] at h2
    by_cases hxc : x ∈ dc
    · exact absurd (if_pos hxc ▸ h2) (by simp)
    · rw [if_neg hxc, stGet_stSet] at h2
      by_cases hxl : lib = x
      · exact absurd (if_pos hxl ▸ h2) (by simp)
      · rwa [if_neg hxl] at h2
  have hreach_lib : ∀ x ∈ dc, Reaches L lib x := by
    intro x hx
    obtain ⟨d, hd, hr⟩ := Ec.reaches x hx
    exact Relation.ReflTransGen.head hd hr
  have hstate : ∀ y, stGet w'.state y =
      if y ∈ dc ++ lib :: dr then some VState.processed else stGet w.state y := by
    intro y
    by_cases hyr : y ∈ dr
    · rw [er y, if_pos hyr,
        if_pos (List.mem_append.mpr (Or.inr (List.mem_cons.mpr (Or.inr hyr))))]
    · rw [er y, if_neg hyr, stGet_stSet]
      by_cases hyl : lib = y
      · rw [if_pos hyl,
          if_pos (List.mem_append.mpr (Or.inr (List.mem_cons.mpr (Or.inl hyl.symm))))]
      · rw [if_neg hyl, ec y]
        by_cases hyc : y ∈ dc
        · rw [if_pos hyc, if_pos (List.mem_append.mpr (Or.inl hyc))]
        · rw [if_neg hyc, stGet_stSet, if_neg hyl,
            if_neg (by
              intro hmem
              rcases List.mem_append.mp hmem with h | h
              · exact hyc h
              · rcases List.mem_cons.mp h with h' | h'
                · exact hyl h'.symm
                · exact hyr h')]
  have hlift : ∀ z, stGet w2.state z ≠ none → stGet w'.state z ≠ none := by
    intro z hz
    rw [er z]
    by_cases hzr : z ∈ dr
    · simp [if_pos hzr]
    · rw [if_neg hzr, stGet_stSet]
      by_cases hzl : lib = z
      · simp [if_pos hzl]
      · rwa [if_neg hzl]
  refine
    { ordered_eq := ?_, nodup := ?_, fresh := ?_, state_eq := hstate, reaches := ?_,
      pending_visited := ?_, children_visited := ?_, topo := ?_ }
  · rw [ero, eco]
    simp
  · refine List.nodup_append.mpr ⟨Ec.nodup, List.nodup_cons.mpr ⟨hlib_nr, Er.nodup⟩, ?_⟩
    intro a hac hal
    rcases List.mem_cons.mp hal with rfl | har
    · exact hlib_nc hac
    · exact hdisj a har hac
  · intro x hx
    rcases List.mem_append.mp hx with h | h
    · exact hfresh_c x h
    · rcases List.mem_cons.mp h with rfl | h'
      · exact hlibnone
      · exact hfresh_r x h'
  · intro x hx
    rcases List.mem_append.mp hx with h | h
    · exact ⟨lib, List.mem_cons_self lib rest, hreach_lib x h⟩
    · rcases List.mem_cons.mp h with rfl | h'
      · exact ⟨x, List.mem_cons_self x rest, Relation.ReflTransGen.refl⟩
      · obtain ⟨d, hd, hr⟩ := Er.reaches x h'
        exact ⟨d, List.mem_cons_of_mem lib hd, hr⟩
  · intro d hd
    rcases List.mem_cons.mp hd with rfl | hd'
    · rw [hstate d, if_pos (List.mem_append.mpr (Or.inr (List.mem_cons.mpr (Or.inl rfl))))]
      simp
    · exact Er.pending_visited d hd'
  · intro x hx y hy
    rcases List.mem_append.mp hx with h | h
    · exact hlift y (Ec.children_visited x h y hy)
    · rcases List.mem_cons.mp h with rfl | h'
      · exact hlift y (Ec.pending_visited y hy)
      · exact Er.children_visited x h' y hy
  · intro d1 x d2 hsplit y hy
    rcases List.append_eq_append_iff.mp hsplit with ⟨a', ha1, ha2⟩ | ⟨c', hc1, hc2⟩
    · -- d1 = dc ++ a' and lib :: dr = a' ++ x :: d2
      cases a' with
      | nil =>
        simp only [List.append_nil] at ha1
        simp only [List.nil_append] at ha2
        injection ha2 with hx2 hd2
        -- hx2 : lib = x, hd2 : dr = d2, ha1 : d1 = dc
        rw [← hx2] at hy
        have hv := Ec.pending_visited y hy
        rw [ec y] at hv
        by_cases hyc : y ∈ dc
        · refine Or.inl ?_
          rw [ha1]
          exact hyc
        · rw [if_neg hyc, stGet_stSet] at hv
          by_cases hyl : lib = y
          · have hyx : y = x := hyl.symm.trans hx2
            refine Or.inr (Or.inr ⟨Or.inl hyx, ?_⟩)
            rw [hyx]
            exact Relation.ReflTransGen.refl
          · rw [if_neg hyl] at hv
            exact Or.inr (Or.inl hv)
      | cons t0 t =>
        injection ha2 with hx2 hd2
        -- hx2 : lib = t0, hd2 : dr = t ++ x :: d2, ha1 : d1 = dc ++ t0 :: t
        have ht := Er.topo t x d2 hd2 y hy
        rcases ht with hyt | hvis | ⟨hyx, hr⟩
        · refine Or.inl ?_
          rw [ha1]
          exact List.mem_append.mpr (Or.inr (List.mem_cons.mpr (Or.inr hyt)))
        · rw [stGet_stSet] at hvis
          by_cases hyl : lib = y
          · refine Or.inl ?_
            rw [ha1, ← hx2]
            exact List.mem_append.mpr (Or.inr (List.mem_cons.mpr (Or.inl hyl.symm)))
          · rw [if_neg hyl, ec y] at hvis
            by_cases hyc : y ∈ dc
            · refine Or.inl ?_
              rw [ha1]
              exact List.mem_append.mpr (Or.inl hyc)
            · rw [if_neg hyc, stGet_stSet, if_neg hyl] at hvis
              exact Or.inr (Or.inl hvis)
        · exact Or.inr (Or.inr ⟨hyx, hr⟩)
    · -- dc = d1 ++ c' and x :: d2 = c' ++ lib :: dr
      cases c' with
      | nil =>
        simp only [List.append_nil] at hc1
        simp only [List.nil_append] at hc2
        injection hc2 with hx2 hd2
        -- hx2 : x = lib, hd2 : d2 = dr, hc1 : dc = d1
        rw [hx2] at hy
        have hv := Ec.pending_visited y hy
        rw [ec y] at hv
        by_cases hyc : y ∈ dc
        · refine Or.inl ?_
          rw [← hc1]
          exact hyc
        · rw [if_neg hyc, stGet_stSet] at hv
          by_cases hyl : lib = y
          · have hyx : y = x := hyl.symm.trans hx2.symm
            refine Or.inr (Or.inr ⟨Or.inl hyx, ?_⟩)
            rw [hyx]
            exact Relation.ReflTransGen.refl
          · rw [if_neg hyl] at hv
            exact Or.inr (Or.inl hv)
      | cons t0 t =>
        injection hc2 with hx2 hd2
        -- hx2 : x = t0, hd2 : d2 = t ++ lib :: dr, hc1 : dc = d1 ++ t0 :: t
        have hxdc : x ∈ dc := by
          rw [hc1]
          exact List.mem_append.mpr (Or.inr (List.mem_cons.mpr (Or.inl hx2)))
        have ht := Ec.topo d1 x t (by rw [hc1, hx2]) y hy
        rcases ht with hyd1 | hvis | ⟨hyx, hr⟩
        · exact Or.inl hyd1
        · rw [stGet_stSet] at hvis
          by_cases hyl : lib = y
          · refine Or.inr (Or.inr ⟨Or.inr ?_, ?_⟩)
            · rw [hd2]
              exact List.mem_append.mpr (Or.inr (List.mem_cons.mpr (Or.inl hyl.symm)))
            · rw [← hyl]
              exact hreach_lib x hxdc
          · rw [if_neg hyl] at hvis
            exact Or.inr (Or.inl hvis)
        · refine Or.inr (Or.inr ⟨?_, hr⟩)
          rcases hyx with h | h
          · exact Or.inl h
          · refine Or.inr ?_
            rw [hd2]
            exact List.mem_append.mpr (Or.inl h)

theorem fdr_master (L : String → List String) :
    ∀ (fuel : Nat) (ds : List String) (w w' : Walk),
      findDepsRun L fuel ds w = some w' → ∃ delta, FdrEffect L ds w w' delta := by
  intro fuel
  induction fuel with
  | zero =>
    intro ds w w' heq
    cases ds with
    | nil =>
      simp only [findDepsRun] at heq
      cases heq
      exact ⟨[], fdrEffect_empty L w⟩
    | cons d ds =>
      simp only [findDepsRun] at heq
      exact Option.noConfusion heq
  | succ fuel ih =>
    intro ds w w' heq
    cases ds with
    | nil =>
      simp only [findDepsRun] at heq
      cases heq
      exact ⟨[], fdrEffect_empty L w⟩
    | cons lib rest =>
      simp only [findDepsRun] at heq
      by_cases h1 : stGet w.state lib = some VState.processed
      · rw [if_pos h1] at heq
        obtain ⟨delta, E⟩ := ih rest w w' heq
        exact ⟨delta, fdrEffect_skip L lib rest w w' delta (by rw [h1]; simp) E⟩
      · rw [if_neg h1] at heq
        by_cases h2 : stGet w.state lib = some VState.inProgress
        · rw [if_pos h2] at heq
          obtain ⟨delta, E⟩ := ih rest w w' heq
          exact ⟨delta, fdrEffect_skip L lib rest w w' delta (by rw [h2]; simp) E⟩
        · rw [if_neg h2] at heq
          have hnone := stGet_none_of_not w.state lib h1 h2
          cases hc : findDepsRun L fuel (L lib)
              ⟨stSet w.state lib VState.inProgress, w.ordered⟩ with
          | none => rw [hc] at heq; exact Option.noConfusion heq
          | some w2 =>
            rw [hc] at heq
            obtain ⟨dc, Ec⟩ := ih (L lib) _ w2 hc
            obtain ⟨dr, Er⟩ := ih rest _ w' heq
            exact ⟨dc ++ lib :: dr, fdrEffect_expand L lib rest w w2 w' dc dr hnone Ec Er⟩

/-! Bridging lemmas between `find_deps` and `findDepsRun`, and basic
facts about the walk invariants. -/

theorem find_deps_false (L : String → List String) (fuel : Nat) (lib : String) (w : Walk)
    (h : stGet w.state lib ≠ none) : find_deps L fuel lib w = some (w, false) := by
  cases hg : stGet w.state lib with
  | none => exact absurd hg h
  | some v =>
    cases v with
    | inProgress => simp [find_deps, hg]
    | processed => simp [find_deps, hg]

theorem find_deps_true (L : String → List String) (fuel : Nat) (lib : String) (w w' : Walk)
    (h : stGet w.state lib = none) (hrun : findDepsRun L fuel [lib] w = some w') :
    find_deps L fuel lib w = some (w', true) := by
  simp [find_deps, h, hrun]

theorem find_deps_eq_some_true (L : String → List String) (fuel : Nat) (lib : String)
    (w w1 : Walk) (h : find_deps L fuel lib w = some (w1, true)) :
    stGet w.state lib = none ∧ findDepsRun L fuel [lib] w = some w1 := by
  by_cases h1 : stGet w.state lib = some VState.processed
  · rw [find_deps, if_pos h1] at h
    simp at h
  · by_cases h2 : stGet w.state lib = some VState.inProgress
    · rw [find_deps, if_neg h1, if_pos h2] at h
      simp at h
    · rw [find_deps, if_neg h1, if_neg h2] at h
      cases hrun : findDepsRun L fuel [lib] w with
      | none => rw [hrun] at h; simp at h
      | some w2 =>
        rw [hrun] at h
        simp at h
        exact ⟨stGet_none_of_not w.state lib h1 h2, by rw [h]⟩

theorem find_deps_eq_some_false (L : String → List String) (fuel : Nat) (lib : String)
    (w w1 : Walk) (h : find_deps L fuel lib w = some (w1, false)) :
    w1 = w ∧ stGet w.state lib ≠ none := by
  by_cases h1 : stGet w.state lib = some VState.processed
  · rw [find_deps, if_pos h1] at h
    simp at h
    exact ⟨h.symm, by rw [h1]; simp⟩
  · by_cases h2 : stGet w.state lib = some VState.inProgress
    · rw [find_deps, if_neg h1, if_pos h2] at h
      simp at h
      exact ⟨h.symm, by rw [h2]; simp⟩
    · rw [find_deps, if_neg h1, if_neg h2] at h
      cases hrun : findDepsRun L fuel [lib] w with
      | none => rw [hrun] at h; simp at h
      | some w2 => rw [hrun] at h; simp at h

theorem visited_pr (s : StMap) (x : String) (hni : NoIp s) (hx : stGet s x ≠ none) :
    stGet s x = some VState.processed := by
  cases h : stGet s x with
  | none => exact absurd h hx
  | some v =>
    cases v with
    | inProgress => exact absurd h (hni x)
    | processed => rfl

theorem reach_visited (L : String → List String) (s : StMap) (hni : NoIp s)
    (hcl : ClosedSt L s) : ∀ x y, stGet s x ≠ none → Reaches L x y → stGet s y ≠ none := by
  intro x y hx hr
  induction hr with
  | refl => exact hx
  | tail hab hby ih => exact hcl _ (visited_pr s _ hni ih) _ hby

theorem addUnique_mem (xs : List String) :
    ∀ (deps : List String) (x : String), x ∈ addUnique deps xs ↔ x ∈ deps ∨ x ∈ xs := by
  induction xs with
  | nil => intro deps x; simp [addUnique]
  | cons a xs ih =>
    intro deps x
    show x ∈ addUnique (if a ∈ deps then deps else deps ++ [a]) xs ↔ _
    rw [ih]
    by_cases ha : a ∈ deps
    · rw [if_pos ha]
      simp only [List.mem_cons]
      constructor
      · rintro (h | h)
        · exact Or.inl h
        · exact Or.inr (Or.inr h)
      · rintro (h | h | h)
        · exact Or.inl h
        · exact Or.inl (by rw [h]; exact ha)
        · exact Or.inr h
    · rw [if_neg ha]
      simp only [List.mem_append, List.mem_cons, List.mem_singleton]
      tauto

/-- The master lemma for the entry-point loop of `list_deps`: from a walk
satisfying the inter-iteration invariants, a successful run preserves
them, only grows the state, visits everything reachable from the
resolved existing entry points, and adds to `ordered` (hence to the
`deps` set) only reachable binaries and raw entry paths. -/
theorem ldr_master (L : String → List String) (e : String → Bool) (r : String → String)
    (fuel : Nat) :
    ∀ (ps : List String) (w : Walk) (deps : List String) (w' : Walk) (deps' : List String),
      list_deps_run L e r fuel ps w deps = some (w', deps') →
      NoIp w.state → ClosedSt L w.state → OrdCov w →
      (∀ x, x ∈ deps ↔ x ∈ w.ordered) →
      (NoIp w'.state ∧ ClosedSt L w'.state ∧ OrdCov w' ∧
        (∀ x, x ∈ deps' ↔ x ∈ w'.ordered)) ∧
      (∀ x v, stGet w.state x = some v → stGet w'.state x = some v) ∧
      (∀ p ∈ ps, e p = true → ∀ x, Reaches L (r p) x → stGet w'.state x ≠ none) ∧
      (∀ x, x ∈ w'.ordered → x ∈ w.ordered ∨
        ∃ p, p ∈ ps ∧ e p = true ∧ (Reaches L (r p) x ∨ x = p)) := by
  intro ps
  induction ps with
  | nil =>
    intro w deps w' deps' heq hni hcl hoc hdeps
    simp only [list_deps_run] at heq
    cases heq
    refine ⟨⟨hni, hcl, hoc, hdeps⟩, fun x v h => h, ?_, fun x hx => Or.inl hx⟩
    intro p hp
    exact absurd hp (List.not_mem_nil p)
  | cons p ps ih =>
    intro w deps w' deps' heq hni hcl hoc hdeps
    simp only [list_deps_run] at heq
    by_cases hep : e p = false
    · rw [if_pos hep] at heq
      obtain ⟨hInv, hmono, hcomp, hsound⟩ := ih w deps w' deps' heq hni hcl hoc hdeps
      refine ⟨hInv, hmono, ?_, ?_⟩
      · intro q hq hqt x hr
        rcases List.mem_cons.mp hq with rfl | hq'
        · rw [hep] at hqt
          exact Bool.noConfusion hqt
        · exact hcomp q hq' hqt x hr
      · intro x hx
        rcases hsound x hx with h | ⟨q, hq, hqt, hqr⟩
        · exact Or.inl h
        · exact Or.inr ⟨q, List.mem_cons_of_mem p hq, hqt, hqr⟩
    · rw [if_neg hep] at heq
      have hep' : e p = true := by
        cases he : e p
        · exact absurd he hep
        · rfl
      cases hfd : find_deps L fuel (r p) w with
      | none => rw [hfd] at heq; exact Option.noConfusion heq
      | some wb =>
        rcases wb with ⟨w1, b⟩
        rw [hfd] at heq
        cases b
        · -- the early-return (Python `None`) case: nothing changed
          obtain ⟨hw1, hvis⟩ := find_deps_eq_some_false L fuel (r p) w w1 hfd
          rw [hw1] at heq
          obtain ⟨hInv, hmono, hcomp, hsound⟩ := ih w deps w' deps' heq hni hcl hoc hdeps
          refine ⟨hInv, hmono, ?_, ?_⟩
          · intro q hq hqt x hr
            rcases List.mem_cons.mp hq with rfl | hq'
            · have hx := reach_visited L w.state hni hcl (r q) x hvis hr
              have h2 := hmono x VState.processed (visited_pr w.state x hni hx)
              rw [h2]
              simp
            · exact hcomp q hq' hqt x hr
          · intro x hx
            rcases hsound x hx with h | ⟨q, hq, hqt, hqr⟩
            · exact Or.inl h
            · exact Or.inr ⟨q, List.mem_cons_of_mem p hq, hqt, hqr⟩
        · -- the expansion case
          obtain ⟨hnone, hrun⟩ := find_deps_eq_some_true L fuel (r p) w w1 hfd
          obtain ⟨delta, E⟩ := fdr_master L fuel [r p] w w1 hrun
          have hni1 : NoIp w1.state := by
            intro x
            rw [E.state_eq x]
            split
            · simp
            · exact hni x
          have hcl1 : ClosedSt L w1.state := by
            intro x hx y hy
            rw [E.state_eq x] at hx
            rw [E.state_eq y]
            by_cases hyD : y ∈ delta
            · rw [if_pos hyD]
              simp
            · rw [if_neg hyD]
              by_cases hxD : x ∈ delta
              · have := E.children_visited x hxD y hy
                rw [E.state_eq y, if_neg hyD] at this
                exact this
              · rw [if_neg hxD] at hx
                exact hcl x hx y hy
          have hoc2 : OrdCov ⟨w1.state, w1.ordered ++ [p]⟩ := by
            intro x hx
            rw [E.state_eq x] at hx
            by_cases hxD : x ∈ delta
            · refine List.mem_append.mpr (Or.inl ?_)
              rw [E.ordered_eq]
              exact List.mem_append.mpr (Or.inr hxD)
            · rw [if_neg hxD] at hx
              refine List.mem_append.mpr (Or.inl ?_)
              rw [E.ordered_eq]
              exact List.mem_append.mpr (Or.inl (hoc x hx))
          have hdeps2 : ∀ x, x ∈ addUnique deps (w1.ordered ++ [p]) ↔
              x ∈ w1.ordered ++ [p] := by
            intro x
            rw [addUnique_mem]
            constructor
            · rintro (h | h)
              · refine List.mem_append.mpr (Or.inl ?_)
                rw [E.ordered_eq]
                exact List.mem_append.mpr (Or.inl ((hdeps x).mp h))
              · exact h
            · exact Or.inr
          obtain ⟨hInv, hmono, hcomp, hsound⟩ :=
            ih ⟨w1.state, w1.ordered ++ [p]⟩ (addUnique deps (w1.ordered ++ [p]))
              w' deps' heq hni1 hcl1 hoc2 hdeps2
          refine ⟨hInv, ?_, ?_, ?_⟩
          · intro x v hx
            have hx1 : stGet w1.state x = some v := by
              rw [E.state_eq x]
              by_cases hxD : x ∈ delta
              · rw [E.fresh x hxD] at hx
                exact Option.noConfusion hx
              · rw [if_neg hxD]
                exact hx
            exact hmono x v hx1
          · intro q hq hqt x hr
            rcases List.mem_cons.mp hq with rfl | hq'
            · have hv1 : stGet w1.state (r q) ≠ none :=
                E.pending_visited (r q) (List.mem_cons_self _ _)
              have hx1 := reach_visited L w1.state hni1 hcl1 (r q) x hv1 hr
              have h2 := hmono x VState.processed (visited_pr w1.state x hni1 hx1)
              rw [h2]
              simp
            · exact hcomp q hq' hqt x hr
          · intro x hx
            rcases hsound x hx with h | ⟨q, hq, hqt, hqr⟩
            · rcases List.mem_append.mp h with h1 | h1
              · rw [E.ordered_eq] at h1
                rcases List.mem_append.mp h1 with h2 | h2
                · exact Or.inl h2
                · obtain ⟨d, hd, hdr⟩ := E.reaches x h2
                  rcases List.mem_cons.mp hd with rfl | hd0
                  · exact Or.inr ⟨p, List.mem_cons_self p ps, hep', Or.inl hdr⟩
                  · exact absurd hd0 (List.not_mem_nil d)
              · have hxp : x = p := List.mem_singleton.mp h1
                exact Or.inr ⟨p, List.mem_cons_self p ps, hep', Or.inr hxp⟩
            · exact Or.inr ⟨q, List.mem_cons_of_mem p hq, hqt, hqr⟩

/-- Joint completeness and soundness of a successful `list_deps` run,
obtained from `ldr_master` at the fresh initial containers. -/
theorem list_deps_spec (L : String → List String) (e : String → Bool) (r : String → String)
    (fuel : Nat) (paths : List String) (deps' : List String)
    (hrun : list_deps L e r fuel paths = some deps') :
    (∀ p ∈ paths, e p = true → ∀ x, Reaches L (r p) x → x ∈ deps') ∧
    (∀ x ∈ deps', ∃ p, p ∈ paths ∧ e p = true ∧ (Reaches L (r p) x ∨ x = p)) := by
  unfold list_deps at hrun
  cases hrr : list_deps_run L e r fuel paths ⟨[], []⟩ [] with
  | none => rw [hrr] at hrun; exact Option.noConfusion hrun
  | some res =>
    rcases res with ⟨w', d'⟩
    rw [hrr] at hrun
    simp only [Option.map_some'] at hrun
    have hd' : d' = deps' := Option.some.inj hrun
    obtain ⟨⟨hni', hcl', hoc', hdeps'⟩, hmono, hcomp, hsound⟩ :=
      ldr_master L e r fuel paths ⟨[], []⟩ [] w' d' hrr
        (fun x h => Option.noConfusion h)
        (fun x h => Option.noConfusion h)
        (fun x h => Option.noConfusion h)
        (fun x => Iff.rfl)
    constructor
    · intro p hp hpt x hr
      have hx := hcomp p hp hpt x hr
      have hpr := visited_pr w'.state x hni' hx
      rw [← hd']
      exact (hdeps' x).mpr (hoc' x hpr)
    · intro x hx
      rw [← hd'] at hx
      have hxo := (hdeps' x).mp hx
      rcases hsound x hxo with h | h
      · exact absurd h (List.not_mem_nil x)
      · exact h

theorem listerEmpty_acyclic : Acyclic listerEmpty := by
  intro x h
  cases h with
  | single h' => exact List.not_mem_nil _ h'
  | tail _ h' => exact List.not_mem_nil _ h'

/-- C1 (amended): a successful `list_deps` run returns a set that
contains every binary reachable via the Lister from the resolved path of
each existing entry point (each resolved entry path included), and
contains nothing besides such reachable binaries and raw existing
entry-point paths.  In particular this holds for every acyclic
dependency graph.  (The raw path of an existing entry point can itself
be missing when its resolved path was already visited — see the
counterexample.) -/
theorem claim_C1_reachable_closure (L : String → List String) (e : String → Bool)
    (r : String → String) (fuel : Nat) (paths : List String) (deps' : List String)
    (hacyc : Acyclic L) (hrun : list_deps L e r fuel paths = some deps') :
    (∀ p ∈ paths, e p = true → ∀ x, Reaches L (r p) x → x ∈ deps') ∧
    (∀ p ∈ paths, e p = true → r p ∈ deps') ∧
    (∀ x ∈ deps', ∃ p, p ∈ paths ∧ e p = true ∧ (Reaches L (r p) x ∨ x = p)) := by
  obtain ⟨hcomp, hsound⟩ := list_deps_spec L e r fuel paths deps' hrun
  exact ⟨hcomp, fun p hp hpt => hcomp p hp hpt (r p) Relation.ReflTransGen.refl, hsound⟩

/-- C1 counterexample: with two symlinks `/a/link1`, `/a/link2` to the
same target (an acyclic, in fact empty, dependency graph) and both entry
points existing, the returned set misses the existing entry point
`/a/link2` — its resolved path `/a/real` was already `processed` when it
was reached, so `find_deps` returned `None` and the raw path was never
added. -/
theorem claim_C1_counterexample :
    Acyclic listerEmpty ∧
    list_deps listerEmpty fsAllExist fsTwoLinks 2 ["/a/link1", "/a/link2"] =
      some ["/a/real", "/a/link1"] ∧
    fsAllExist "/a/link2" = true ∧
    "/a/link2" ∉ (["/a/real", "/a/link1"] : List String) :=
  ⟨listerEmpty_acyclic, by decide, by decide, by decide⟩

/-- C1 witness: the amended closure theorem at the one-entry-point,
no-dependency instance. -/
theorem claim_C1_witness :
    Acyclic listerEmpty ∧
    list_deps listerEmpty fsAllExist id 2 ["/x"] = some ["/x"] ∧
    ((∀ p ∈ ["/x"], fsAllExist p = true →
        ∀ x, Reaches listerEmpty (id p) x → x ∈ (["/x"] : List String)) ∧
      (∀ p ∈ ["/x"], fsAllExist p = true → id p ∈ (["/x"] : List String)) ∧
      (∀ x ∈ (["/x"] : List String), ∃ p, p ∈ ["/x"] ∧ fsAllExist p = true ∧
        (Reaches listerEmpty (id p) x ∨ x = p))) :=
  ⟨listerEmpty_acyclic, by decide,
    claim_C1_reachable_closure listerEmpty fsAllExist id 2 ["/x"] ["/x"]
      listerEmpty_acyclic (by decide)⟩

/-- C2 (amended): the output of `DepsTracker.list_deps` is a list of
resolved paths (every element is the image of `resolve`); every element
refers to an existing file provided the Lister only reports existing
paths and resolution preserves existence.  Without those provisions an
element need not exist, and the list may repeat a path — see the
counterexample. -/
theorem claim_C2_output_paths (L : String → List String) (e : String → Bool)
    (r : String → String) (fuel : Nat) (paths : List String) (out : List String)
    (hrun : tracker_list_deps L e r fuel paths = some out)
    (hLex : ∀ x y, y ∈ L x → e y = true)
    (hres : ∀ x, e x = true → e (r x) = true) :
    (∀ x ∈ out, ∃ d, x = r d) ∧ (∀ x ∈ out, e x = true) := by
  unfold tracker_list_deps at hrun
  cases hld : list_deps L e r fuel paths with
  | none => rw [hld] at hrun; exact Option.noConfusion hrun
  | some deps' =>
    rw [hld] at hrun
    simp only [Option.map_some'] at hrun
    have hout : List.map r deps' = out := Option.some.inj hrun
    have hsound := (list_deps_spec L e r fuel paths deps' hld).2
    have hex : ∀ d ∈ deps', e d = true := by
      intro d hd
      obtain ⟨p, hp, hpt, hcase⟩ := hsound d hd
      rcases hcase with hreach | hdp
      · rcases Relation.ReflTransGen.cases_tail hreach with heq | ⟨c, _, hc⟩
        · rw [heq]
          exact hres p hpt
        · exact hLex c d hc
      · rw [hdp]
        exact hpt
    constructor
    · intro x hx
      rw [← hout] at hx
      obtain ⟨d, hd, hdx⟩ := List.mem_map.mp hx
      exact ⟨d, hdx.symm⟩
    · intro x hx
      rw [← hout] at hx
      obtain ⟨d, hd, hdx⟩ := List.mem_map.mp hx
      rw [← hdx]
      exact hres d (hex d hd)

/-- C2 counterexample: with the entry point `/a/link` (a symlink to
`/a/real`) and `/a/real` depending on the non-existent `/gone` (the
`_replace_rpath` fallback returns non-existent paths unchecked), the
tracker output lists `/a/real` twice — it is not a set — and contains
the non-existent path `/gone`. -/
theorem claim_C2_counterexample :
    tracker_list_deps listerGone fsGoneMissing fsOneLink 3 ["/a/link"] =
      some ["/gone", "/a/real", "/a/real"] ∧
    ¬ (["/gone", "/a/real", "/a/real"] : List String).Nodup ∧
    "/gone" ∈ (["/gone", "/a/real", "/a/real"] : List String) ∧
    fsGoneMissing "/gone" = false :=
  ⟨by decide, by decide, by decide, by decide⟩

/-- C2 witness: the amended output theorem at the identity-resolution,
everything-exists instance. -/
theorem claim_C2_witness :
    tracker_list_deps listerEmpty fsAllExist id 2 ["/x"] = some ["/x"] ∧
    (∀ x y, y ∈ listerEmpty x → fsAllExist y = true) ∧
    (∀ x, fsAllExist x = true → fsAllExist (id x) = true) ∧
    ((∀ x ∈ (["/x"] : List String), ∃ d, x = id d) ∧
      (∀ x ∈ (["/x"] : List String), fsAllExist x = true)) :=
  ⟨by decide, fun _ _ h => absurd h (List.not_mem_nil _), fun _ h => h,
    claim_C2_output_paths listerEmpty fsAllExist id 2 ["/x"] ["/x"] (by decide)
      (fun _ _ h => absurd h (List.not_mem_nil _)) (fun _ h => h)⟩

/-- C4 (amended): within one `list_deps` call, each expansion performed
by the closure walk `find_deps` appends a block of pairwise-distinct,
previously-unvisited binaries to `ordered` (so the walk appends each
binary at most once per call), and inside that block every binary
appears after each of its direct dependencies except dependencies that
were already `processed` before the expansion or that close a cycle
back to the binary (witnessed by a reverse reachability path); under an
acyclic graph the cycle case is impossible and the block order is a
topological order.  The claim as stated about the whole `ordered` list
fails, because `list_deps` additionally appends each processed raw
entry-point path to the same list — see the counterexample. -/
theorem claim_C4_closure_walk_order (L : String → List String) (fuel : Nat)
    (lib : String) (w w1 : Walk)
    (hni : NoIp w.state)
    (hrun : find_deps L fuel lib w = some (w1, true)) :
    ∃ delta, w1.ordered = w.ordered ++ delta ∧ delta.Nodup ∧
      (∀ x ∈ delta, stGet w.state x = none) ∧
      (∀ d1 x d2, delta = d1 ++ x :: d2 → ∀ y ∈ L x,
        y ∈ d1 ∨ stGet w.state y = some VState.processed ∨
          ((y = x ∨ y ∈ d2) ∧ Reaches L y x)) ∧
      (Acyclic L → ∀ d1 x d2, delta = d1 ++ x :: d2 → ∀ y ∈ L x,
        y ∈ d1 ∨ stGet w.state y = some VState.processed) := by
  obtain ⟨hnone, hfr⟩ := find_deps_eq_some_true L fuel lib w w1 hrun
  obtain ⟨delta, E⟩ := fdr_master L fuel [lib] w w1 hfr
  refine ⟨delta, E.ordered_eq, E.nodup, E.fresh, ?_, ?_⟩
  · intro d1 x d2 hsp y hy
    rcases E.topo d1 x d2 hsp y hy with h | h | h
    · exact Or.inl h
    · exact Or.inr (Or.inl (visited_pr w.state y hni h))
    · exact Or.inr (Or.inr h)
  · intro hacyc d1 x d2 hsp y hy
    rcases E.topo d1 x d2 hsp y hy with h | h | ⟨hcase, hr⟩
    · exact Or.inl h
    · exact Or.inr (visited_pr w.state y hni h)
    · exact absurd (Relation.TransGen.head' hy hr) (hacyc x)

/-- C4 counterexample: for the single existing entry point `/x` with no
dependencies, the final `ordered` list of the `list_deps` loop is
`["/x", "/x"]` — the closure walk appended `/x` once, and
`new_deps.append(path)` appended the raw entry path to the same list a
second time, so the traversal output is not duplicate-free. -/
theorem claim_C4_counterexample :
    list_deps_run listerEmpty fsAllExist id 2 ["/x"] ⟨[], []⟩ [] =
      some (⟨[("/x", VState.processed), ("/x", VState.inProgress)], ["/x", "/x"]⟩, ["/x"]) ∧
    ¬ (["/x", "/x"] : List String).Nodup :=
  ⟨by decide, by decide⟩

/-- C4 witness: the closure-walk order theorem at the one-binary,
no-dependency instance. -/
theorem claim_C4_witness :
    NoIp (Walk.mk [] []).state ∧
    find_deps listerEmpty 2 "/x" ⟨[], []⟩ =
      some (⟨[("/x", VState.processed), ("/x", VState.inProgress)], ["/x"]⟩, true) ∧
    (∃ delta,
      (⟨[("/x", VState.processed), ("/x", VState.inProgress)], ["/x"]⟩ : Walk).ordered =
        (Walk.mk [] []).ordered ++ delta ∧ delta.Nodup ∧
      (∀ x ∈ delta, stGet (Walk.mk [] []).state x = none) ∧
      (∀ d1 x d2, delta = d1 ++ x :: d2 → ∀ y ∈ listerEmpty x,
        y ∈ d1 ∨ stGet (Walk.mk [] []).state y = some VState.processed ∨
          ((y = x ∨ y ∈ d2) ∧ Reaches listerEmpty y x)) ∧
      (Acyclic listerEmpty → ∀ d1 x d2, delta = d1 ++ x :: d2 → ∀ y ∈ listerEmpty x,
        y ∈ d1 ∨ stGet (Walk.mk [] []).state y = some VState.processed)) :=
  ⟨fun _ h => Option.noConfusion h, by decide,
    claim_C4_closure_walk_order listerEmpty 2 "/x" ⟨[], []⟩
      ⟨[("/x", VState.processed), ("/x", VState.inProgress)], ["/x"]⟩
      (fun _ h => Option.noConfusion h) (by decide)⟩

/-! Fuel monotonicity and fuel sufficiency: the model's fuel is an
artifact of the embedding, and enough of it always exists when the
library universe is finite and closed under the Lister. -/

theorem fdr_mono (L : String → List String) :
    ∀ (fuel : Nat) (ds : List String) (w w' : Walk),
      findDepsRun L fuel ds w = some w' → findDepsRun L (fuel + 1) ds w = some w' := by
  intro fuel
  induction fuel with
  | zero =>
    intro ds w w' heq
    cases ds with
    | nil => simp only [findDepsRun] at heq ⊢; exact heq
    | cons d ds' =>
      simp only [findDepsRun] at heq
      exact Option.noConfusion heq
  | succ fuel ih =>
    intro ds w w' heq
    cases ds with
    | nil => simp only [findDepsRun] at heq ⊢; exact heq
    | cons lib rest =>
      simp only [findDepsRun] at heq ⊢
      by_cases h1 : stGet w.state lib = some VState.processed
      · rw [if_pos h1] at heq ⊢
        exact ih rest w w' heq
      · rw [if_neg h1] at heq ⊢
        by_cases h2 : stGet w.state lib = some VState.inProgress
        · rw [if_pos h2] at heq ⊢
          exact ih rest w w' heq
        · rw [if_neg h2] at heq ⊢
          cases hc : findDepsRun L fuel (L lib)
              ⟨stSet w.state lib VState.inProgress, w.ordered⟩ with
          | none => rw [hc] at heq; exact Option.noConfusion heq
          | some w2 =>
            rw [hc] at heq
            rw [ih _ _ _ hc]
            exact ih _ _ _ heq

theorem fdr_mono_le (L : String → List String) (f1 f2 : Nat) (h : f1 ≤ f2) :
    ∀ (ds : List String) (w w' : Walk),
      findDepsRun L f1 ds w = some w' → findDepsRun L f2 ds w = some w' := by
  induction h with
  | refl => exact fun ds w w' heq => heq
  | step _ ih => exact fun ds w w' heq => fdr_mono L _ _ _ _ (ih ds w w' heq)

theorem filter_length_mono {α : Type} (p q : α → Bool)
    (hpq : ∀ a, q a = true → p a = true) :
    ∀ l : List α, (l.filter q).length ≤ (l.filter p).length := by
  intro l
  induction l with
  | nil => simp
  | cons a l ih =>
    cases hq : q a
    · rw [List.filter_cons_of_neg (by simp [hq])]
      cases hp : p a
      · rw [List.filter_cons_of_neg (by simp [hp])]
        exact ih
      · rw [List.filter_cons_of_pos (by simp [hp])]
        exact Nat.le_succ_of_le ih
    · rw [List.filter_cons_of_pos (by simp [hq]),
        List.filter_cons_of_pos (by simp [hpq a hq])]
      exact Nat.succ_le_succ ih

theorem filter_length_lt {α : Type} (p q : α → Bool)
    (hpq : ∀ a, q a = true → p a = true)
    (x : α) (hpx : p x = true) (hqx : q x = false) :
    ∀ l : List α, x ∈ l → (l.filter q).length < (l.filter p).length := by
  intro l
  induction l with
  | nil => intro h; exact absurd h (List.not_mem_nil x)
  | cons a l ih =>
    intro hx
    rcases List.mem_cons.mp hx with rfl | hx'
    · rw [List.filter_cons_of_neg (by simp [hqx]), List.filter_cons_of_pos (by simp [hpx])]
      simp only [List.length_cons]
      exact Nat.lt_succ_of_le (filter_length_mono p q hpq l)
    · cases hq : q a
      · rw [List.filter_cons_of_neg (by simp [hq])]
        cases hp : p a
        · rw [List.filter_cons_of_neg (by simp [hp])]
          exact ih hx'
        · rw [List.filter_cons_of_pos (by simp [hp])]
          exact Nat.lt_succ_of_lt (ih hx')
      · rw [List.filter_cons_of_pos (by simp [hq]),
          List.filter_cons_of_pos (by simp [hpq a hq])]
        exact Nat.succ_lt_succ (ih hx')

theorem ucount_set_lt (U : List String) (s : StMap) (x : String) (v : VState)
    (hxU : x ∈ U) (hx : stGet s x = none) :
    (U.filter (fun y => decide (stGet (stSet s x v) y = none))).length <
      (U.filter (fun y => decide (stGet s y = none))).length := by
  refine filter_length_lt _ _ ?_ x (by simp [hx]) (by simp [stGet_stSet]) U hxU
  intro a ha
  simp only [decide_eq_true_eq] at ha ⊢
  rw [stGet_stSet] at ha
  by_cases hxa : x = a
  · rw [if_pos hxa] at ha
    exact Option.noConfusion ha
  · rwa [if_neg hxa] at ha

theorem ucount_le_of_ext (U : List String) (s1 s2 : StMap)
    (h : ∀ x, stGet s2 x = none → stGet s1 x = none) :
    (U.filter (fun y => decide (stGet s2 y = none))).length ≤
      (U.filter (fun y => decide (stGet s1 y = none))).length := by
  refine filter_length_mono _ _ ?_ U
  intro a ha
  simp only [decide_eq_true_eq] at ha ⊢
  exact h a ha

theorem fdr_total (L : String → List String) (U : List String)
    (hU : ∀ x ∈ U, ∀ y ∈ L x, y ∈ U) :
    ∀ (n : Nat) (ds : List String) (w : Walk),
      (∀ d ∈ ds, d ∈ U) →
      (U.filter (fun y => decide (stGet w.state y = none))).length ≤ n →
      ∃ fuel w', findDepsRun L fuel ds w = some w' := by
  intro n
  induction n using Nat.strong_induction_on with
  | _ n ihn =>
    intro ds
    induction ds with
    | nil => exact fun w _ _ => ⟨0, w, rfl⟩
    | cons lib rest ihd =>
      intro w hds hcnt
      by_cases hvis : stGet w.state lib = none
      · have hlibU : lib ∈ U := hds lib (List.mem_cons_self lib rest)
        have hcnt1 := ucount_set_lt U w.state lib VState.inProgress hlibU hvis
        have hlt : (U.filter (fun y =>
            decide (stGet (stSet w.state lib VState.inProgress) y = none))).length < n :=
          lt_of_lt_of_le hcnt1 hcnt
        obtain ⟨fc, w2, hc⟩ := ihn _ hlt (L lib)
          ⟨stSet w.state lib VState.inProgress, w.ordered⟩
          (fun d hd => hU lib hlibU d hd) (le_refl _)
        obtain ⟨delta, E⟩ := fdr_master L fc (L lib)
          ⟨stSet w.state lib VState.inProgress, w.ordered⟩ w2 hc
        have hext3 : ∀ x, stGet (stSet w2.state lib VState.processed) x = none →
            stGet (stSet w.state lib VState.inProgress) x = none := by
          intro x hx
          rw [stGet_stSet] at hx
          by_cases hxl : lib = x
          · rw [if_pos hxl] at hx
            exact Option.noConfusion hx
          · rw [if_neg hxl] at hx
            rw [E.state_eq x] at hx
            by_cases hxD : x ∈ delta
            · rw [if_pos hxD] at hx
              exact Option.noConfusion hx
            · rwa [if_neg hxD] at hx
        have hlt3 : (U.filter (fun y =>
            decide (stGet (stSet w2.state lib VState.processed) y = none))).length < n :=
          lt_of_le_of_lt (ucount_le_of_ext U _ _ hext3) hlt
        obtain ⟨fr, w', hr⟩ := ihn _ hlt3 rest
          ⟨stSet w2.state lib VState.processed, w2.ordered ++ [lib]⟩
          (fun d hd => hds d (List.mem_cons_of_mem lib hd)) (le_refl _)
        refine ⟨max fc fr + 1, w', ?_⟩
        have hcM : findDepsRun L (max fc fr) (L lib)
            ⟨stSet w.state lib VState.inProgress, w.ordered⟩ = some w2 :=
          fdr_mono_le L fc _ (le_max_left _ _) _ _ _ hc
        have hrM : findDepsRun L (max fc fr) rest
            ⟨stSet w2.state lib VState.processed, w2.ordered ++ [lib]⟩ = some w' :=
          fdr_mono_le L fr _ (le_max_right _ _) _ _ _ hr
        have h1 : ¬ stGet w.state lib = some VState.processed := by
          rw [hvis]
          simp
        have h2 : ¬ stGet w.state lib = some VState.inProgress := by
          rw [hvis]
          simp
        simp only [findDepsRun, if_neg h1, if_neg h2, hcM]
        exact hrM
      · obtain ⟨fuel, w', h⟩ :=
          ihd w (fun d hd => hds d (List.mem_cons_of_mem lib hd)) hcnt
        refine ⟨fuel + 1, w', ?_⟩
        cases hg : stGet w.state lib with
        | none => exact absurd hg hvis
        | some v =>
          cases v with
          | inProgress => simp [findDepsRun, hg, h]
          | processed => simp [findDepsRun, hg, h]

theorem find_deps_mono (L : String → List String) (fuel : Nat) (lib : String) (w : Walk)
    (res : Walk × Bool) (h : find_deps L fuel lib w = some res) :
    find_deps L (fuel + 1) lib w = some res := by
  unfold find_deps at h ⊢
  by_cases h1 : stGet w.state lib = some VState.processed
  · rw [if_pos h1] at h ⊢
    exact h
  · rw [if_neg h1] at h ⊢
    by_cases h2 : stGet w.state lib = some VState.inProgress
    · rw [if_pos h2] at h ⊢
      exact h
    · rw [if_neg h2] at h ⊢
      cases hc : findDepsRun L fuel [lib] w with
      | none => rw [hc] at h; exact Option.noConfusion h
      | some w2 =>
        rw [hc] at h
        rw [fdr_mono L fuel _ _ _ hc]
        exact h

theorem ldr_mono (L : String → List String) (e : String → Bool) (r : String → String) :
    ∀ (fuel : Nat) (ps : List String) (w : Walk) (deps : List String)
      (res : Walk × List String),
      list_deps_run L e r fuel ps w deps = some res →
      list_deps_run L e r (fuel + 1) ps w deps = some res := by
  intro fuel ps
  induction ps with
  | nil => exact fun w deps res heq => heq
  | cons p ps ih =>
    intro w deps res heq
    simp only [list_deps_run] at heq ⊢
    by_cases hep : e p = false
    · rw [if_pos hep] at heq ⊢
      exact ih w deps res heq
    · rw [if_neg hep] at heq ⊢
      cases hfd : find_deps L fuel (r p) w with
      | none => rw [hfd] at heq; exact Option.noConfusion heq
      | some wb =>
        rw [hfd] at heq
        rw [find_deps_mono L fuel _ _ _ hfd]
        rcases wb with ⟨w1, b⟩
        cases b
        · exact ih _ _ _ heq
        · exact ih _ _ _ heq

theorem ldr_mono_le (L : String → List String) (e : String → Bool) (r : String → String)
    (f1 f2 : Nat) (h : f1 ≤ f2) :
    ∀ (ps : List String) (w : Walk) (deps : List String) (res : Walk × List String),
      list_deps_run L e r f1 ps w deps = some res →
      list_deps_run L e r f2 ps w deps = some res := by
  induction h with
  | refl => exact fun ps w deps res heq => heq
  | step _ ih => exact fun ps w deps res heq => ldr_mono L e r _ _ _ _ _ (ih ps w deps res heq)

theorem ldr_total (L : String → List String) (e : String → Bool) (r : String → String)
    (U : List String) (hU : ∀ x ∈ U, ∀ y ∈ L x, y ∈ U) :
    ∀ (paths : List String) (w : Walk) (deps : List String),
      (∀ p ∈ paths, e p = true → r p ∈ U) →
      ∃ fuel res, list_deps_run L e r fuel paths w deps = some res := by
  intro paths
  induction paths with
  | nil => exact fun w deps _ => ⟨0, (w, deps), rfl⟩
  | cons p ps ih =>
    intro w deps hroots
    by_cases hep : e p = false
    · obtain ⟨fuel, res, h⟩ :=
        ih w deps (fun q hq hqt => hroots q (List.mem_cons_of_mem p hq) hqt)
      refine ⟨fuel, res, ?_⟩
      simp only [list_deps_run, if_pos hep]
      exact h
    · have hep' : e p = true := by
        cases he : e p
        · exact absurd he hep
        · rfl
      by_cases hv : stGet w.state (r p) = none
      · obtain ⟨fc, w1, hc⟩ := fdr_total L U hU
          ((U.filter (fun y => decide (stGet w.state y = none))).length) [r p] w
          (fun d hd => by
            rcases List.mem_cons.mp hd with rfl | hd0
            · exact hroots p (List.mem_cons_self p ps) hep'
            · exact absurd hd0 (List.not_mem_nil d))
          (le_refl _)
        obtain ⟨fr, res, hr⟩ :=
          ih ⟨w1.state, w1.ordered ++ [p]⟩ (addUnique deps (w1.ordered ++ [p]))
            (fun q hq hqt => hroots q (List.mem_cons_of_mem p hq) hqt)
        refine ⟨max fc fr, res, ?_⟩
        have hfdM : find_deps L (max fc fr) (r p) w = some (w1, true) :=
          find_deps_true L (max fc fr) (r p) w w1 hv
            (fdr_mono_le L fc _ (le_max_left _ _) _ _ _ hc)
        have hrM := ldr_mono_le L e r fr (max fc fr) (le_max_right _ _) ps _ _ res hr
        simp only [list_deps_run, if_neg hep, hfdM]
        exact hrM
      · obtain ⟨fuel, res, h⟩ :=
          ih w deps (fun q hq hqt => hroots q (List.mem_cons_of_mem p hq) hqt)
        refine ⟨fuel, res, ?_⟩
        simp only [list_deps_run, if_neg hep, find_deps_false L fuel (r p) w hv]
        exact h

/-- C3: first, a binary already marked `in-progress` when re-encountered
makes `find_deps` return immediately (Python `None`) with the walk
untouched — the cycle edge is simply not re-traversed and no error is
raised; second, whenever the library universe is finite and closed under
the Lister (as for any dependency graph over finitely many binaries,
cyclic or not), some fuel makes `list_deps` return a result, i.e. the
recursion terminates; third, on the concrete two-cycle
`liba → libb → liba`, `list_deps` terminates and returns both members. -/
theorem claim_C3_cycle_termination :
    (∀ (L : String → List String) (fuel : Nat) (lib : String) (w : Walk),
      stGet w.state lib = some VState.inProgress →
      find_deps L fuel lib w = some (w, false)) ∧
    (∀ (L : String → List String) (e : String → Bool) (r : String → String)
      (paths U : List String),
      (∀ x ∈ U, ∀ y ∈ L x, y ∈ U) → (∀ p ∈ paths, e p = true → r p ∈ U) →
      ∃ fuel res, list_deps L e r fuel paths = some res) ∧
    (list_deps listerCycle fsAllExist id 3 ["liba"] = some ["libb", "liba"] ∧
      "liba" ∈ (["libb", "liba"] : List String) ∧
      "libb" ∈ (["libb", "liba"] : List String)) := by
  refine ⟨?_, ?_, by decide, by decide, by decide⟩
  · intro L fuel lib w h
    exact find_deps_false L fuel lib w (by rw [h]; simp)
  · intro L e r paths U hU hroots
    obtain ⟨fuel, res, h⟩ := ldr_total L e r U hU paths ⟨[], []⟩ [] hroots
    refine ⟨fuel, res.2, ?_⟩
    unfold list_deps
    rw [h]
    rfl

/-- C3 witness: the in-progress early return on a concrete walk, and
termination on the concrete cyclic graph. -/
theorem claim_C3_witness :
    find_deps listerCycle 5 "liba" ⟨[("liba", VState.inProgress)], []⟩ =
      some (⟨[("liba", VState.inProgress)], []⟩, false) ∧
    (∃ fuel res, list_deps listerCycle fsAllExist id fuel ["liba"] = some res) :=
  ⟨claim_C3_cycle_termination.1 listerCycle 5 "liba"
      ⟨[("liba", VState.inProgress)], []⟩ (by decide),
    claim_C3_cycle_termination.2.1 listerCycle fsAllExist id ["liba"] ["liba", "libb"]
      (by decide) (by decide)⟩

end DepsTrackerModel
